import Mathlib

/-!
Verification development for the meta-photo pipeline (src/src/main.rs).

The program scans image files, extracts three EXIF fields (f-number,
exposure time, ISO), normalizes the exposure time to the nearest entry of a
fixed 19-entry shutter-speed table, and counts files per
(aperture-bits, shutter-label, iso) group key.

Shallow embedding conventions:
* `f64` values flowing through arithmetic are modelled by `FVal`: an exact
  rational for finite doubles plus the three non-finite shapes, with IEEE-754
  semantics for subtraction, absolute value and `<` (comparisons involving
  NaN are false).  Rounding of finite arithmetic is not modelled; the table
  constants `1.0/8000.0, …` are taken at their exact rational values.
* The aperture stored inside a group key is modelled by its raw bit pattern
  (`F64`, mirroring the Rust newtype `F64(f64)` whose `Eq`/`Hash` go through
  `f64::to_bits`).  `F64.decode` is the IEEE-754 binary64 interpretation of
  the bit pattern, used to express numeric (==) equality of doubles.
* The `HashMap<MetaData, u32>` is modelled as an association list with
  `record` implementing `*map.entry(k).or_insert(0) += 1`.
-/

/-- The shape of an IEEE-754 double: an exact finite rational, ±∞, or NaN. -/
inductive FVal : Type where
  | fin (q : ℚ)
  | inf
  | neginf
  | nan
  deriving DecidableEq, Repr

namespace FVal

/-- IEEE-754 subtraction on the value model (Rust `a - b` on `f64`),
exact on finite operands. -/
def sub : FVal → FVal → FVal
  | nan, _ => nan
  | _, nan => nan
  | inf, inf => nan
  | inf, _ => inf
  | neginf, neginf => nan
  | neginf, _ => neginf
  | fin _, inf => neginf
  | fin _, neginf => inf
  | fin a, fin b => fin (a - b)

/-- IEEE-754 absolute value (Rust `f64::abs`). -/
def abs : FVal → FVal
  | nan => nan
  | inf => inf
  | neginf => inf
  | fin q => fin |q|

/-- IEEE-754 `<` (Rust `a < b` on `f64`): any comparison with NaN is false. -/
def blt : FVal → FVal → Bool
  | nan, _ => false
  | _, nan => false
  | neginf, neginf => false
  | neginf, _ => true
  | _, neginf => false
  | inf, _ => false
  | fin _, inf => true
  | fin a, fin b => decide (a < b)

/-- IEEE-754 division (Rust `n as f64 / d as f64`), used for rational tag
values; division by zero follows IEEE rules. -/
def div : FVal → FVal → FVal
  | nan, _ => nan
  | _, nan => nan
  | inf, inf => nan
  | inf, neginf => nan
  | neginf, inf => nan
  | neginf, neginf => nan
  | inf, fin _ => inf
  | neginf, fin _ => neginf
  | fin _, inf => fin 0
  | fin _, neginf => fin 0
  | fin a, fin b =>
      if b = 0 then (if a = 0 then nan else (if a < 0 then neginf else inf))
      else fin (a / b)

end FVal

/-- `const STANDARD_SHUTTER_SPEEDS: [(f64, &str); 19]`, each pair a seconds
value (exact rational model of the `f64` constant) and its display label. -/
def STANDARD_SHUTTER_SPEEDS : List (ℚ × String) :=
  [ (1/8000, "1/8000"),
    (1/4000, "1/4000"),
    (1/2000, "1/2000"),
    (1/1000, "1/1000"),
    (1/500,  "1/500"),
    (1/250,  "1/250"),
    (1/125,  "1/125"),
    (1/60,   "1/60"),
    (1/30,   "1/30"),
    (1/15,   "1/15"),
    (1/8,    "1/8"),
    (1/4,    "1/4"),
    (1/2,    "1/2"),
    (1,      "1"),
    (2,      "2"),
    (4,      "4"),
    (8,      "8"),
    (15,     "15"),
    (30,     "30") ]

/-- One step of the scan loop of `to_closest_shutter_speed`: state is
`(closest, min_diff)`; the candidate replaces the state only when its
distance is strictly smaller (`diff < min_diff` on `f64`). -/
def shutterStep (value : FVal) (st : (ℚ × String) × FVal) (entry : ℚ × String) :
    (ℚ × String) × FVal :=
  let diff := (value.sub (FVal.fin entry.1)).abs
  if (diff.blt st.2) = true then (entry, diff) else st

/-- `fn to_closest_shutter_speed(value: f64) -> &'static str`: initialize
`closest` to `STANDARD_SHUTTER_SPEEDS[0]` and `min_diff` to
`(value - closest.0).abs()`, scan the whole table replacing on strictly
smaller difference, return the final label. -/
def to_closest_shutter_speed (value : FVal) : String :=
  let closest0 := STANDARD_SHUTTER_SPEEDS.headD (0, "")
  let initDiff := (value.sub (FVal.fin closest0.1)).abs
  (STANDARD_SHUTTER_SPEEDS.foldl (shutterStep value) (closest0, initDiff)).1.2

/-! ## Group keys: `F64` bit-pattern wrapper and `MetaData` (main.rs lines 10-32) -/

/-- `struct F64(pub f64)`: the aperture as stored in a group key, carried by
its raw IEEE-754 bit pattern (`f64::to_bits`). -/
structure F64 : Type where
  bits : ℕ
  deriving DecidableEq, Repr

/-- `impl PartialEq for F64`: `self.0.to_bits() == other.0.to_bits()`. -/
def F64.beq (a b : F64) : Bool := a.bits == b.bits

/-- The IEEE-754 binary64 interpretation of a bit pattern: sign bit,
11-bit exponent, 52-bit fraction; exponent 2047 encodes ±∞ / NaN,
exponent 0 encodes subnormals. Used to express numeric equality of the
doubles behind two bit patterns. -/
def F64.decode (x : F64) : FVal :=
  let s : ℕ := x.bits / 2 ^ 63 % 2
  let e : ℕ := x.bits / 2 ^ 52 % 2 ^ 11
  let m : ℕ := x.bits % 2 ^ 52
  if e = 2047 then
    if m = 0 then (if s = 1 then FVal.neginf else FVal.inf) else FVal.nan
  else
    let sgn : ℚ := if s = 1 then -1 else 1
    if e = 0 then FVal.fin (sgn * m / 2 ^ 1074)
    else FVal.fin (sgn * (2 ^ 52 + m) * (2 : ℚ) ^ ((e : ℤ) - 1075))

/-- IEEE-754 `==` on doubles, expressed on bit patterns: both decode to the
same non-NaN shape (so `-0.0 == 0.0` holds, while `NaN == NaN` fails). -/
def F64.numEq (a b : F64) : Prop :=
  a.decode = b.decode ∧ a.decode ≠ FVal.nan

/-- `struct MetaData { f_stop: F64, exposure: String, iso: u32 }`. -/
structure MetaData : Type where
  f_stop : F64
  exposure : String
  iso : ℕ
  deriving DecidableEq, Repr

/-- `#[derive(PartialEq)]` for `MetaData`: field-wise equality, the `F64`
field going through its bit-pattern `eq`. -/
def MetaData.beq (a b : MetaData) : Bool :=
  F64.beq a.f_stop b.f_stop && a.exposure == b.exposure && a.iso == b.iso

/-- `#[derive(Hash)]` for `MetaData` with `impl Hash for F64` hashing
`self.0.to_bits()`: the hash feeds exactly the aperture's bit pattern, the
label and the ISO to the hasher, whatever hasher `h` the map supplies. -/
def MetaData.hashWith (h : ℕ → String → ℕ → ℕ) (m : MetaData) : ℕ :=
  h m.f_stop.bits m.exposure m.iso

/-! ## EXIF extraction (main.rs lines 122-161) -/

/-- The EXIF tags the extractor inspects, plus a catch-all for any other tag
carried by an entry (`rexif::ExifTag`). -/
inductive ExifTag : Type where
  | FNumber
  | ExposureTime
  | ISOSpeedRatings
  | OtherTag (code : ℕ)
  deriving DecidableEq, Repr

/-- The shapes of `rexif::TagValue` the extractor distinguishes: unsigned
16-bit and 32-bit sequences (matched by name for the ISO field), unsigned
rational sequences (the usual encoding of f-number and exposure time), and a
catch-all for every other shape (Ascii, signed, undefined, ...). -/
inductive TagValue : Type where
  | U16 (vals : List ℕ)
  | U32 (vals : List ℕ)
  | URational (vals : List (ℕ × ℕ))
  | OtherVal
  deriving DecidableEq, Repr

/-- Modelled from the external `rexif` collaborator: `TagValue::to_f64(i)`
converts the `i`-th component of a numeric tag value to `f64` (for a
rational, numerator over denominator with IEEE division), and yields nothing
for an out-of-range index or a non-numeric shape. -/
def TagValue.to_f64 : TagValue → ℕ → Option FVal
  | U16 vals, i => (vals.get? i).map (fun n => FVal.fin n)
  | U32 vals, i => (vals.get? i).map (fun n => FVal.fin n)
  | URational vals, i =>
      (vals.get? i).map (fun p => FVal.div (FVal.fin p.1) (FVal.fin p.2))
  | OtherVal, _ => none

/-- One parsed metadata entry: a tag identifier and a typed value
(`rexif::ExifEntry`, restricted to the two fields the extractor reads). -/
structure ExifEntry : Type where
  tag : ExifTag
  value : TagValue
  deriving DecidableEq, Repr

/-- The per-entry closure of the f-number arm of `extract_exif_data`:
`|e| if e.tag == FNumber { e.value.to_f64(0) } else { None }`. -/
def fnumDecode (e : ExifEntry) : Option FVal :=
  if e.tag = ExifTag.FNumber then e.value.to_f64 0 else none

/-- The per-entry closure of the exposure-time arm of `extract_exif_data`,
same shape as the f-number one with tag `ExposureTime`. -/
def expDecode (e : ExifEntry) : Option FVal :=
  if e.tag = ExifTag.ExposureTime then e.value.to_f64 0 else none

/-- The f-number arm of `extract_exif_data`:
`entries.iter().find_map(fnumDecode)`. -/
def findFNumber (entries : List ExifEntry) : Option FVal :=
  entries.findSome? fnumDecode

/-- The exposure-time arm of `extract_exif_data`:
`entries.iter().find_map(expDecode)`. -/
def findExposureTime (entries : List ExifEntry) : Option FVal :=
  entries.findSome? expDecode

/-- The per-entry decoder of the ISO arm: on tag `ISOSpeedRatings`, match
the value shape — `U16(values)` or `U32(values)` yield `values.get(0)`
(16-bit widened to `u32`), anything else yields `None`. -/
def isoDecode (e : ExifEntry) : Option ℕ :=
  if e.tag = ExifTag.ISOSpeedRatings then
    match e.value with
    | TagValue.U16 vals => vals.get? 0
    | TagValue.U32 vals => vals.get? 0
    | _ => none
  else none

/-- The ISO arm of `extract_exif_data`: `entries.iter().find_map(isoDecode)`. -/
def findISO (entries : List ExifEntry) : Option ℕ :=
  entries.findSome? isoDecode

/-- `fn extract_exif_data(path) -> Option<(f64, f64, u32)>`, modelled on the
already-parsed entry collection (parsing the file is the excluded
collaborator): run the three arms and return the triple only when all three
are `Some`. -/
def extract_exif_data (entries : List ExifEntry) : Option (FVal × FVal × ℕ) :=
  match findFNumber entries, findExposureTime entries, findISO entries with
  | some f, some s, some i => some (f, s, i)
  | _, _, _ => none

/-- Stated from the spec sentence behind C2 (for comparison with
`extract_exif_data`'s ISO arm): "only the first matching entry (in
collection order) is used" — take the first entry whose tag matches and
decode that one entry, never consulting later matching entries. -/
def findISO_specFirst (entries : List ExifEntry) : Option ℕ :=
  (entries.find? fun e => e.tag == ExifTag.ISOSpeedRatings).bind isoDecode

/-! ## Aggregation (main.rs lines 93-111) -/

/-- The `HashMap<MetaData, u32>` modelled as an association list of
(key, count) pairs, keys compared with `MetaData`'s derived equality. -/
abbrev GroupTable : Type := List (MetaData × ℕ)

/-- Map lookup under the derived key equality. -/
def GroupTable.lookup (t : GroupTable) (k : MetaData) : Option ℕ :=
  (List.find? (fun p => MetaData.beq p.1 k) t).map (fun p => p.2)

/-- `*metadata_map.entry(meta_data).or_insert(0) += 1`: increment the
count of `k` when a key equal to it is present, otherwise insert it
with count 1. -/
def GroupTable.record (t : GroupTable) (k : MetaData) : GroupTable :=
  match t with
  | [] => [(k, 1)]
  | p :: rest =>
      if MetaData.beq p.1 k then (p.1, p.2 + 1) :: rest
      else p :: GroupTable.record rest k

/-- The per-file raw triple as it leaves extraction, with the aperture
already viewed through its bit pattern (the `F64(f_stop)` wrapping in
`main`) and the shutter seconds still a raw `f64` value. -/
structure RawTriple : Type where
  f_stop : F64
  shutter : FVal
  iso : ℕ

/-- The group key `main` builds for one extracted triple:
`MetaData { f_stop: F64(f_stop), exposure: to_closest_shutter_speed(s).to_string(), iso }`. -/
def keyOf (r : RawTriple) : MetaData :=
  { f_stop := r.f_stop
    exposure := to_closest_shutter_speed r.shutter
    iso := r.iso }

/-- The body of `main`'s per-file loop: `none` models a glob error or a
file whose extraction returned nothing (both are skipped); `some r` models
a file whose extraction succeeded, whose key is recorded in the table. -/
def processFile (t : GroupTable) (r : Option RawTriple) : GroupTable :=
  match r with
  | none => t
  | some r => GroupTable.record t (keyOf r)

/-- `main`'s aggregation loop: start from the empty map and fold
`processFile` over the per-file extraction outcomes in file order. -/
def runPipeline (files : List (Option RawTriple)) : GroupTable :=
  files.foldl processFile []

/-- Sum of all counts stored in the table. -/
def GroupTable.sumCounts (t : GroupTable) : ℕ :=
  (List.map (fun p => p.2) t).sum

/-- The 19 canonical labels of the reference table. -/
def SHUTTER_LABELS : List String :=
  STANDARD_SHUTTER_SPEEDS.map (fun p => p.2)

/-- Specification-side selection underlying the scan loop: starting from a
current best `c`, walk the remaining candidates, replacing the best exactly
on strictly smaller distance to `q`. `to_closest_shutter_speed` on a finite
input computes the label of this selection started at the table's head. -/
def chooseMin (q : ℚ) : (ℚ × String) → List (ℚ × String) → (ℚ × String)
  | c, [] => c
  | c, e :: l => if |q - e.1| < |q - c.1| then chooseMin q e l else chooseMin q c l


/-! ## Helper lemmas -/

theorem F64.beq_bits_iff {a b : F64} : F64.beq a b = true ↔ a = b := by
  cases a; cases b
  simp [F64.beq, F64.mk.injEq]

theorem MetaData.beq_key_iff {a b : MetaData} : MetaData.beq a b = true ↔ a = b := by
  cases a; cases b
  simp [MetaData.beq, F64.beq_bits_iff, MetaData.mk.injEq, Bool.and_eq_true, and_assoc]

theorem GroupTable.lookup_nil (k : MetaData) : GroupTable.lookup [] k = none := rfl

theorem GroupTable.lookup_cons (p : MetaData × ℕ) (t : GroupTable) (k : MetaData) :
    GroupTable.lookup (p :: t) k =
      if MetaData.beq p.1 k = true then some p.2 else GroupTable.lookup t k := by
  by_cases h : MetaData.beq p.1 k = true
  · simp [GroupTable.lookup, List.find?_cons_of_pos, h]
  · simp [GroupTable.lookup, List.find?_cons_of_neg, h]

theorem GroupTable.record_nil (k : MetaData) : GroupTable.record [] k = [(k, 1)] := rfl

theorem GroupTable.record_cons (p : MetaData × ℕ) (t : GroupTable) (k : MetaData) :
    GroupTable.record (p :: t) k =
      if MetaData.beq p.1 k = true then (p.1, p.2 + 1) :: t
      else p :: GroupTable.record t k := rfl

theorem GroupTable.lookup_record_self (t : GroupTable) (k : MetaData) :
    (t.record k).lookup k = some ((t.lookup k).getD 0 + 1) := by
  induction t with
  | nil =>
      have hkk : MetaData.beq k k = true := MetaData.beq_key_iff.mpr rfl
      simp [GroupTable.record_nil, GroupTable.lookup_cons, GroupTable.lookup_nil, hkk]
  | cons p rest ih =>
      by_cases h : MetaData.beq p.1 k = true
      · simp [GroupTable.record_cons, GroupTable.lookup_cons, h]
      · simp [GroupTable.record_cons, GroupTable.lookup_cons, h, ih]

theorem GroupTable.lookup_record_other (t : GroupTable) (k k' : MetaData)
    (h : k' ≠ k) : (t.record k).lookup k' = t.lookup k' := by
  induction t with
  | nil =>
      have hkk : ¬ MetaData.beq k k' = true := by
        simp [MetaData.beq_key_iff]; exact Ne.symm h
      simp [GroupTable.record_nil, GroupTable.lookup_cons, GroupTable.lookup_nil, hkk]
  | cons p rest ih =>
      by_cases hp : MetaData.beq p.1 k = true
      · have hp' : ¬ MetaData.beq p.1 k' = true := by
          rw [MetaData.beq_key_iff] at hp ⊢
          rw [hp]; exact Ne.symm h
        simp [GroupTable.record_cons, GroupTable.lookup_cons, hp, hp']
      · simp [GroupTable.record_cons, GroupTable.lookup_cons, hp, ih]

theorem GroupTable.sumCounts_cons (p : MetaData × ℕ) (t : GroupTable) :
    GroupTable.sumCounts (p :: t) = p.2 + t.sumCounts := by
  simp [GroupTable.sumCounts]

theorem GroupTable.sumCounts_record (t : GroupTable) (k : MetaData) :
    (t.record k).sumCounts = t.sumCounts + 1 := by
  induction t with
  | nil => simp [GroupTable.record_nil, GroupTable.sumCounts]
  | cons p rest ih =>
      by_cases h : MetaData.beq p.1 k = true
      · simp [GroupTable.record_cons, GroupTable.sumCounts_cons, h]
        ring
      · rw [GroupTable.record_cons, if_neg h]
        rw [GroupTable.sumCounts_cons, GroupTable.sumCounts_cons, ih]
        ring

theorem shutterStep_fin (q : ℚ) (c e : ℚ × String) :
    shutterStep (FVal.fin q) (c, FVal.fin |q - c.1|) e =
      if |q - e.1| < |q - c.1| then (e, FVal.fin |q - e.1|)
      else (c, FVal.fin |q - c.1|) := by
  simp [shutterStep, FVal.sub, FVal.abs, FVal.blt]

theorem foldl_shutterStep_fin (q : ℚ) (l : List (ℚ × String)) (c : ℚ × String) :
    List.foldl (shutterStep (FVal.fin q)) (c, FVal.fin |q - c.1|) l =
      (chooseMin q c l, FVal.fin |q - (chooseMin q c l).1|) := by
  induction l generalizing c with
  | nil => simp [chooseMin]
  | cons e l ih =>
      rw [List.foldl_cons, shutterStep_fin]
      by_cases h : |q - e.1| < |q - c.1|
      · rw [if_pos h]
        simp only [chooseMin, if_pos h]
        exact ih e
      · rw [if_neg h]
        simp only [chooseMin, if_neg h]
        exact ih c

theorem chooseMin_spec (q : ℚ) (l : List (ℚ × String)) (c : ℚ × String) :
    (chooseMin q c l = c ∧ ∀ e ∈ l, |q - c.1| ≤ |q - e.1|) ∨
    (∃ l1 e l2, l = l1 ++ e :: l2 ∧ chooseMin q c l = e ∧
      |q - e.1| < |q - c.1| ∧ (∀ x ∈ l1, |q - e.1| < |q - x.1|) ∧
      (∀ x ∈ l2, |q - e.1| ≤ |q - x.1|)) := by
  induction l generalizing c with
  | nil => exact Or.inl ⟨rfl, by simp⟩
  | cons e l ih =>
      by_cases h : |q - e.1| < |q - c.1|
      · have hstep : chooseMin q c (e :: l) = chooseMin q e l := by
          simp only [chooseMin, if_pos h]
        rcases ih e with ⟨hres, hmin⟩ | ⟨l1, e', l2, heq, hres, hlt, hstrict, hle⟩
        · refine Or.inr ⟨[], e, l, rfl, ?_, h, by simp, hmin⟩
          rw [hstep, hres]
        · refine Or.inr ⟨e :: l1, e', l2, by rw [heq]; rfl, ?_, lt_trans hlt h, ?_, hle⟩
          · rw [hstep, hres]
          · intro x hx
            rcases List.mem_cons.mp hx with hx | hx
            · rw [hx]; exact hlt
            · exact hstrict x hx
      · have hstep : chooseMin q c (e :: l) = chooseMin q c l := by
          simp only [chooseMin, if_neg h]
        rcases ih c with ⟨hres, hmin⟩ | ⟨l1, e', l2, heq, hres, hlt, hstrict, hle⟩
        · refine Or.inl ⟨by rw [hstep, hres], ?_⟩
          intro x hx
          rcases List.mem_cons.mp hx with hx | hx
          · rw [hx]; exact le_of_not_lt h
          · exact hmin x hx
        · refine Or.inr ⟨e :: l1, e', l2, by rw [heq]; rfl, ?_, hlt, ?_, hle⟩
          · rw [hstep, hres]
          · intro x hx
            rcases List.mem_cons.mp hx with hx | hx
            · rw [hx]; exact lt_of_lt_of_le hlt (le_of_not_lt h)
            · exact hstrict x hx

theorem chooseMin_mem (q : ℚ) (l : List (ℚ × String)) (c : ℚ × String) :
    chooseMin q c l = c ∨ chooseMin q c l ∈ l := by
  rcases chooseMin_spec q l c with ⟨hres, _⟩ | ⟨l1, e, l2, heq, hres, _⟩
  · exact Or.inl hres
  · refine Or.inr ?_
    rw [hres, heq]
    exact List.mem_append.mpr (Or.inr (List.mem_cons_self e l2))

theorem chooseMin_min (q : ℚ) (l : List (ℚ × String)) (c : ℚ × String) :
    ∀ x ∈ l, |q - (chooseMin q c l).1| ≤ |q - x.1| := by
  rcases chooseMin_spec q l c with ⟨hres, hmin⟩ | ⟨l1, e, l2, heq, hres, _, hstrict, hle⟩
  · rw [hres]; exact hmin
  · intro x hx
    rw [hres]
    rw [heq] at hx
    rcases List.mem_append.mp hx with hx | hx
    · exact le_of_lt (hstrict x hx)
    · rcases List.mem_cons.mp hx with hx | hx
      · rw [hx]
      · exact hle x hx

theorem to_closest_fin (q : ℚ) :
    to_closest_shutter_speed (FVal.fin q) =
      (chooseMin q (1/8000, "1/8000") STANDARD_SHUTTER_SPEEDS).2 := by
  have h : to_closest_shutter_speed (FVal.fin q) =
      (List.foldl (shutterStep (FVal.fin q))
        ((1/8000, "1/8000"), FVal.fin |q - 1/8000|) STANDARD_SHUTTER_SPEEDS).1.2 := rfl
  rw [h, foldl_shutterStep_fin]

theorem getD_append_len {α : Type} (l1 : List α) (e : α) (l2 : List α) (d : α) :
    (l1 ++ e :: l2).getD l1.length d = e := by
  induction l1 with
  | nil => rfl
  | cons a l ih => simpa using ih

theorem getD_append_lt {α : Type} (l1 : List α) (e : α) (l2 : List α) (d : α)
    (j : ℕ) (h : j < l1.length) : (l1 ++ e :: l2).getD j d = l1.getD j d := by
  induction l1 generalizing j with
  | nil => simp at h
  | cons a l ih =>
      cases j with
      | zero => rfl
      | succ j => simpa using ih j (by simpa using h)

theorem getD_mem {α : Type} (l : List α) (j : ℕ) (d : α) (h : j < l.length) :
    l.getD j d ∈ l := by
  induction l generalizing j with
  | nil => simp at h
  | cons a l ih =>
      cases j with
      | zero => exact List.mem_cons_self a l
      | succ j => exact List.mem_cons_of_mem a (ih j (by simpa using h))

theorem shutterTable_length : STANDARD_SHUTTER_SPEEDS.length = 19 := rfl

theorem shutterTable_fst_nodup :
    (STANDARD_SHUTTER_SPEEDS.map (fun p => p.1)).Nodup := by
  norm_num [STANDARD_SHUTTER_SPEEDS, List.nodup_cons, List.mem_cons]

theorem shutterTable_getD_fst_inj (i k : ℕ) (hi : i < 19) (hk : k < 19)
    (h : (STANDARD_SHUTTER_SPEEDS.getD i ((0 : ℚ), "")).1 =
      (STANDARD_SHUTTER_SPEEDS.getD k ((0 : ℚ), "")).1) :
    STANDARD_SHUTTER_SPEEDS.getD i ((0 : ℚ), "") =
      STANDARD_SHUTTER_SPEEDS.getD k ((0 : ℚ), "") := by
  have hi' : i < STANDARD_SHUTTER_SPEEDS.length := by rw [shutterTable_length]; exact hi
  have hk' : k < STANDARD_SHUTTER_SPEEDS.length := by rw [shutterTable_length]; exact hk
  rw [List.getD_eq_getElem _ _ hi', List.getD_eq_getElem _ _ hk'] at h ⊢
  have him : i < (STANDARD_SHUTTER_SPEEDS.map (fun p => p.1)).length := by
    simpa using hi'
  have hkm : k < (STANDARD_SHUTTER_SPEEDS.map (fun p => p.1)).length := by
    simpa using hk'
  have hmap : (STANDARD_SHUTTER_SPEEDS.map (fun p => p.1)).get ⟨i, him⟩ =
      (STANDARD_SHUTTER_SPEEDS.map (fun p => p.1)).get ⟨k, hkm⟩ := by
    simpa using h
  have := (List.Nodup.get_inj_iff shutterTable_fst_nodup).mp hmap
  have hik : i = k := congrArg Fin.val this
  subst hik
  rfl

/-! ## Claim theorems -/

/-- C1: for every finite input `q`, `to_closest_shutter_speed` returns the
label of a table entry whose seconds value is at minimal absolute distance
`|q - candidate|` from `q`, and every entry strictly earlier in the table is
at strictly greater distance (exact ties keep the earlier entry); in
particular, on an input equal to the seconds value of entry `k` it returns
that entry's label. -/
theorem C1_normalizer_nearest (q : ℚ) :
    (∃ i : ℕ, i < 19 ∧
      to_closest_shutter_speed (FVal.fin q) =
        (STANDARD_SHUTTER_SPEEDS.getD i ((0 : ℚ), "")).2 ∧
      (∀ j : ℕ, j < 19 →
        |q - (STANDARD_SHUTTER_SPEEDS.getD i ((0 : ℚ), "")).1| ≤
          |q - (STANDARD_SHUTTER_SPEEDS.getD j ((0 : ℚ), "")).1|) ∧
      (∀ j : ℕ, j < i →
        |q - (STANDARD_SHUTTER_SPEEDS.getD i ((0 : ℚ), "")).1| <
          |q - (STANDARD_SHUTTER_SPEEDS.getD j ((0 : ℚ), "")).1|)) ∧
    (∀ k : ℕ, k < 19 → q = (STANDARD_SHUTTER_SPEEDS.getD k ((0 : ℚ), "")).1 →
      to_closest_shutter_speed (FVal.fin q) =
        (STANDARD_SHUTTER_SPEEDS.getD k ((0 : ℚ), "")).2) := by
  have hmain : ∃ i : ℕ, i < 19 ∧
      to_closest_shutter_speed (FVal.fin q) =
        (STANDARD_SHUTTER_SPEEDS.getD i ((0 : ℚ), "")).2 ∧
      (∀ j : ℕ, j < 19 →
        |q - (STANDARD_SHUTTER_SPEEDS.getD i ((0 : ℚ), "")).1| ≤
          |q - (STANDARD_SHUTTER_SPEEDS.getD j ((0 : ℚ), "")).1|) ∧
      (∀ j : ℕ, j < i →
        |q - (STANDARD_SHUTTER_SPEEDS.getD i ((0 : ℚ), "")).1| <
          |q - (STANDARD_SHUTTER_SPEEDS.getD j ((0 : ℚ), "")).1|) := by
    rcases chooseMin_spec q STANDARD_SHUTTER_SPEEDS (1/8000, "1/8000") with
      ⟨hres, hmin⟩ | ⟨l1, e, l2, heq, hres, hlt, hstrict, hle⟩
    · refine ⟨0, by norm_num, ?_, ?_, ?_⟩
      · rw [to_closest_fin, hres]; rfl
      · intro j hj
        have hjm : j < STANDARD_SHUTTER_SPEEDS.length := by
          rw [shutterTable_length]; exact hj
        exact hmin _ (getD_mem _ j _ hjm)
      · intro j hj
        exact absurd hj (Nat.not_lt_zero j)
    · have hlen : STANDARD_SHUTTER_SPEEDS.length = l1.length + (l2.length + 1) := by
        rw [heq]; simp
      have hl1 : l1.length < 19 := by
        rw [shutterTable_length] at hlen; omega
      have hgi : STANDARD_SHUTTER_SPEEDS.getD l1.length ((0 : ℚ), "") = e := by
        rw [heq]; exact getD_append_len l1 e l2 _
      have hminall : ∀ x ∈ STANDARD_SHUTTER_SPEEDS, |q - e.1| ≤ |q - x.1| := by
        intro x hx
        rw [heq] at hx
        rcases List.mem_append.mp hx with hx | hx
        · exact le_of_lt (hstrict x hx)
        · rcases List.mem_cons.mp hx with hx | hx
          · rw [hx]
          · exact hle x hx
      refine ⟨l1.length, hl1, ?_, ?_, ?_⟩
      · rw [to_closest_fin, hres, hgi]
      · intro j hj
        have hjm : j < STANDARD_SHUTTER_SPEEDS.length := by
          rw [shutterTable_length]; exact hj
        rw [hgi]
        exact hminall _ (getD_mem _ j _ hjm)
      · intro j hj
        have hgj : STANDARD_SHUTTER_SPEEDS.getD j ((0 : ℚ), "") = l1.getD j ((0 : ℚ), "") := by
          rw [heq]; exact getD_append_lt l1 e l2 _ j hj
        rw [hgi, hgj]
        exact hstrict _ (getD_mem l1 j _ hj)
  refine ⟨hmain, ?_⟩
  intro k hk hq
  obtain ⟨i, hi, hres, hmin, _⟩ := hmain
  have h0 : |q - (STANDARD_SHUTTER_SPEEDS.getD k ((0 : ℚ), "")).1| = 0 := by
    rw [← hq, sub_self, abs_zero]
  have hle0 : |q - (STANDARD_SHUTTER_SPEEDS.getD i ((0 : ℚ), "")).1| ≤ 0 := by
    have h := hmin k hk
    rw [h0] at h
    exact h
  have hzero : |q - (STANDARD_SHUTTER_SPEEDS.getD i ((0 : ℚ), "")).1| = 0 :=
    le_antisymm hle0 (abs_nonneg _)
  have hvi : (STANDARD_SHUTTER_SPEEDS.getD i ((0 : ℚ), "")).1 = q := by
    have := abs_eq_zero.mp hzero
    linarith [sub_eq_zero.mp this]
  have hentry := shutterTable_getD_fst_inj i k hi hk (by rw [hvi, hq])
  rw [hres, hentry]

/-- Witness for C1 at the concrete input 1/2000 s, the seconds value of the
table entry at index 2: the normalizer returns that entry's label. -/
theorem C1_normalizer_nearest_witness :
    to_closest_shutter_speed (FVal.fin (1/2000)) = "1/2000" :=
  (C1_normalizer_nearest (1/2000)).2 2 (by norm_num) rfl

/-- C7: on NaN, +∞ and -∞ every computed distance is NaN or infinite, the
strict `<` against the running minimum never fires, and the normalizer
returns the table's first label "1/8000". -/
theorem C7_nonfinite_first_label :
    to_closest_shutter_speed FVal.nan = "1/8000" ∧
    to_closest_shutter_speed FVal.inf = "1/8000" ∧
    to_closest_shutter_speed FVal.neginf = "1/8000" :=
  ⟨by decide, by decide, by decide⟩

theorem to_closest_mem_labels (v : FVal) :
    to_closest_shutter_speed v ∈ SHUTTER_LABELS := by
  cases v with
  | fin q =>
      rw [to_closest_fin]
      rcases chooseMin_mem q STANDARD_SHUTTER_SPEEDS (1/8000, "1/8000") with h | h
      · rw [h]; decide
      · simp only [SHUTTER_LABELS]
        exact List.mem_map_of_mem _ h
  | inf => decide
  | neginf => decide
  | nan => decide

theorem mem_record {t : GroupTable} {k : MetaData} {p : MetaData × ℕ}
    (h : p ∈ t.record k) : p.1 = k ∨ ∃ p' ∈ t, p.1 = p'.1 := by
  induction t with
  | nil =>
      rw [GroupTable.record_nil] at h
      rcases List.mem_singleton.mp h with h
      exact Or.inl (by rw [h])
  | cons a rest ih =>
      rw [GroupTable.record_cons] at h
      by_cases hb : MetaData.beq a.1 k = true
      · rw [if_pos hb] at h
        rcases List.mem_cons.mp h with h | h
        · exact Or.inr ⟨a, List.mem_cons_self a rest, by rw [h]⟩
        · exact Or.inr ⟨p, List.mem_cons_of_mem a h, rfl⟩
      · rw [if_neg hb] at h
        rcases List.mem_cons.mp h with h | h
        · exact Or.inr ⟨a, List.mem_cons_self a rest, by rw [h]⟩
        · rcases ih h with h | ⟨p', hp', he⟩
          · exact Or.inl h
          · exact Or.inr ⟨p', List.mem_cons_of_mem a hp', he⟩

theorem foldl_processFile_labels (files : List (Option RawTriple)) :
    ∀ t : GroupTable, (∀ p ∈ t, p.1.exposure ∈ SHUTTER_LABELS) →
      ∀ p ∈ files.foldl processFile t, p.1.exposure ∈ SHUTTER_LABELS := by
  induction files with
  | nil => intro t ht; simpa using ht
  | cons r rest ih =>
      intro t ht
      rw [List.foldl_cons]
      apply ih
      cases r with
      | none => exact ht
      | some r =>
          intro p hp
          rcases mem_record hp with h | ⟨p', hp', he⟩
          · rw [h]
            exact to_closest_mem_labels r.shutter
          · rw [he]
            exact ht p' hp'

/-- C9: the normalizer's result is always one of the 19 canonical labels of
the reference table, and consequently every key ever inserted into the group
table carries a canonical label in its `exposure` field. -/
theorem C9_labels_canonical :
    (∀ v : FVal, to_closest_shutter_speed v ∈ SHUTTER_LABELS) ∧
    (∀ (files : List (Option RawTriple)) (p : MetaData × ℕ),
      p ∈ runPipeline files → p.1.exposure ∈ SHUTTER_LABELS) := by
  refine ⟨to_closest_mem_labels, ?_⟩
  intro files p hp
  exact foldl_processFile_labels files [] (by simp) p hp

/-- Witness for C9: one file with a NaN shutter produces the table
`[(⟨bits 0, "1/8000", 100⟩, 1)]`, whose single key carries the canonical
label "1/8000". -/
theorem C9_labels_canonical_witness : ("1/8000" : String) ∈ SHUTTER_LABELS :=
  C9_labels_canonical.2 [some ⟨⟨0⟩, FVal.nan, 100⟩] (⟨⟨0⟩, "1/8000", 100⟩, 1)
    (by decide)

/-- C8: recording a key in the table inserts it at count 1 when absent,
bumps its count by exactly 1 when present, and leaves the count of every
other key unchanged. -/
theorem C8_record_increment (t : GroupTable) (k : MetaData) :
    (t.lookup k = none → (t.record k).lookup k = some 1) ∧
    (∀ n : ℕ, t.lookup k = some n → (t.record k).lookup k = some (n + 1)) ∧
    (∀ k' : MetaData, k' ≠ k → (t.record k).lookup k' = t.lookup k') := by
  refine ⟨?_, ?_, ?_⟩
  · intro h
    rw [GroupTable.lookup_record_self, h]
    rfl
  · intro n h
    rw [GroupTable.lookup_record_self, h]
    rfl
  · intro k' h
    exact GroupTable.lookup_record_other t k k' h

/-- Witness for C8: recording a key into the empty table inserts it with
count 1. -/
theorem C8_record_increment_witness :
    (GroupTable.record [] ⟨⟨0⟩, "1", 100⟩).lookup ⟨⟨0⟩, "1", 100⟩ = some 1 :=
  (C8_record_increment [] ⟨⟨0⟩, "1", 100⟩).1 rfl

theorem sumCounts_foldl (files : List (Option RawTriple)) :
    ∀ t : GroupTable, (files.foldl processFile t).sumCounts =
      t.sumCounts + files.countP (fun r => r.isSome) := by
  induction files with
  | nil => intro t; simp
  | cons r rest ih =>
      intro t
      rw [List.foldl_cons]
      cases r with
      | none =>
          rw [ih]
          simp [processFile, List.countP_cons]
      | some r =>
          rw [ih]
          simp only [processFile]
          rw [GroupTable.sumCounts_record]
          simp [List.countP_cons]
          omega

/-- C5: after processing any sequence of per-file outcomes, the sum of all
counts in the table equals the number of files whose extraction fully
succeeded, and a file with no extracted triple leaves the table unchanged. -/
theorem C5_sum_counts (files : List (Option RawTriple)) :
    (runPipeline files).sumCounts = files.countP (fun r => r.isSome) ∧
    (∀ t : GroupTable, processFile t none = t) := by
  refine ⟨?_, fun t => rfl⟩
  have h := sumCounts_foldl files []
  simpa [runPipeline, GroupTable.sumCounts] using h

theorem lookup_record_isSome (t : GroupTable) (k0 k : MetaData) :
    ((t.record k0).lookup k).isSome =
      ((t.lookup k).isSome || MetaData.beq k0 k) := by
  by_cases hb : MetaData.beq k0 k = true
  · rw [MetaData.beq_key_iff] at hb
    subst hb
    rw [GroupTable.lookup_record_self]
    simp [MetaData.beq_key_iff]
  · have hne : k ≠ k0 := by
      intro he
      exact hb (MetaData.beq_key_iff.mpr he.symm)
    rw [GroupTable.lookup_record_other t k0 k hne]
    simp [hb]

theorem lookupD_foldl (files : List (Option RawTriple)) :
    ∀ (t : GroupTable) (k : MetaData),
      ((files.foldl processFile t).lookup k).getD 0 =
        (t.lookup k).getD 0 +
          (files.filterMap id).countP (fun r => MetaData.beq (keyOf r) k) := by
  induction files with
  | nil => intro t k; simp
  | cons r rest ih =>
      intro t k
      rw [List.foldl_cons]
      cases r with
      | none =>
          rw [ih]
          simp [processFile, List.filterMap_cons]
      | some r =>
          rw [ih]
          simp only [processFile, List.filterMap_cons, id_eq]
          rw [List.countP_cons]
          by_cases hb : MetaData.beq (keyOf r) k = true
          · rw [MetaData.beq_key_iff] at hb
            rw [hb, GroupTable.lookup_record_self]
            simp [MetaData.beq_key_iff]
            omega
          · have hne : k ≠ keyOf r := by
              intro he
              exact hb (MetaData.beq_key_iff.mpr he.symm)
            rw [GroupTable.lookup_record_other t (keyOf r) k hne]
            simp [hb]

theorem lookup_isSome_foldl (files : List (Option RawTriple)) :
    ∀ (t : GroupTable) (k : MetaData),
      ((files.foldl processFile t).lookup k).isSome =
        ((t.lookup k).isSome ||
          (files.filterMap id).any (fun r => MetaData.beq (keyOf r) k)) := by
  induction files with
  | nil => intro t k; simp
  | cons r rest ih =>
      intro t k
      rw [List.foldl_cons]
      cases r with
      | none =>
          rw [ih]
          simp [processFile, List.filterMap_cons]
      | some r =>
          rw [ih]
          simp only [processFile, List.filterMap_cons, id_eq]
          rw [lookup_record_isSome, List.any_cons]
          cases h : (t.lookup k).isSome <;> cases hb : MetaData.beq (keyOf r) k <;> simp [h, hb]


/-- C6: the final table is a pure function of the multiset of successfully
extracted triples — the count stored under any key is exactly the number of
extracted triples whose key equals it (absent when that number is zero) —
and hence processing a permutation of the same per-file outcomes yields a
table with the same keys and the same counts. -/
theorem C6_table_multiset_function :
    (∀ (files : List (Option RawTriple)) (k : MetaData),
      (runPipeline files).lookup k =
        (if (files.filterMap id).countP (fun r => MetaData.beq (keyOf r) k) = 0
         then none
         else some ((files.filterMap id).countP (fun r => MetaData.beq (keyOf r) k)))) ∧
    (∀ files1 files2 : List (Option RawTriple), files1.Perm files2 →
      ∀ k : MetaData, (runPipeline files1).lookup k = (runPipeline files2).lookup k) := by
  have hchar : ∀ (files : List (Option RawTriple)) (k : MetaData),
      (runPipeline files).lookup k =
        (if (files.filterMap id).countP (fun r => MetaData.beq (keyOf r) k) = 0
         then none
         else some ((files.filterMap id).countP (fun r => MetaData.beq (keyOf r) k))) := by
    intro files k
    have hD := lookupD_foldl files [] k
    have hS := lookup_isSome_foldl files [] k
    rw [GroupTable.lookup_nil] at hD hS
    simp only [Option.getD_none, Option.isSome_none, Bool.false_or, Nat.zero_add] at hD hS
    show (files.foldl processFile []).lookup k = _
    cases hres : (files.foldl processFile []).lookup k with
    | none =>
        rw [hres] at hD
        simp only [Option.getD_none] at hD
        rw [if_pos hD.symm]
    | some m =>
        rw [hres] at hD hS
        simp only [Option.getD_some, Option.isSome_some] at hD hS
        have hn : (files.filterMap id).countP (fun r => MetaData.beq (keyOf r) k) ≠ 0 := by
          intro h0
          rw [List.countP_eq_zero] at h0
          obtain ⟨x, hx, hpx⟩ := List.any_eq_true.mp hS.symm
          exact h0 x hx hpx
        rw [if_neg hn, hD]
  refine ⟨hchar, ?_⟩
  intro l1 l2 hp k
  rw [hchar l1 k, hchar l2 k]
  have hcount : (l1.filterMap id).countP (fun r => MetaData.beq (keyOf r) k) =
      (l2.filterMap id).countP (fun r => MetaData.beq (keyOf r) k) :=
    (hp.filterMap id).countP_eq _
  rw [hcount]

/-- Witness for C6: swapping a successful file and a skipped file leaves
the looked-up count of the successful file's key unchanged. -/
theorem C6_table_multiset_function_witness :
    (runPipeline [some ⟨⟨0⟩, FVal.nan, 100⟩, none]).lookup
        (keyOf ⟨⟨0⟩, FVal.nan, 100⟩) =
      (runPipeline [none, some ⟨⟨0⟩, FVal.nan, 100⟩]).lookup
        (keyOf ⟨⟨0⟩, FVal.nan, 100⟩) :=
  C6_table_multiset_function.2 _ _
    (List.Perm.swap none (some ⟨⟨0⟩, FVal.nan, 100⟩) []) _

/-- C2 counterexample: in a collection whose first ISO-tagged entry has an
undecodable value and whose second ISO-tagged entry is `U16 [100]`,
`find_map` skips the failed first entry and consults the second, so the
extractor does not agree with "only the first matching entry is used". -/
theorem C2_counterexample :
    findISO [⟨ExifTag.ISOSpeedRatings, TagValue.OtherVal⟩,
      ⟨ExifTag.ISOSpeedRatings, TagValue.U16 [100]⟩] = some 100 ∧
    findISO_specFirst [⟨ExifTag.ISOSpeedRatings, TagValue.OtherVal⟩,
      ⟨ExifTag.ISOSpeedRatings, TagValue.U16 [100]⟩] = none ∧
    ¬ (findISO [⟨ExifTag.ISOSpeedRatings, TagValue.OtherVal⟩,
        ⟨ExifTag.ISOSpeedRatings, TagValue.U16 [100]⟩] =
      findISO_specFirst [⟨ExifTag.ISOSpeedRatings, TagValue.OtherVal⟩,
        ⟨ExifTag.ISOSpeedRatings, TagValue.U16 [100]⟩]) := by
  refine ⟨by decide, by decide, by decide⟩

theorem findSome_append_first {α β : Type} (f : α → Option β) (l1 : List α)
    (e : α) (l2 : List α) (v : β) (h1 : ∀ x ∈ l1, f x = none)
    (h2 : f e = some v) : (l1 ++ e :: l2).findSome? f = some v := by
  induction l1 with
  | nil =>
      rw [List.nil_append, List.findSome?_cons, h2]
  | cons a l ih =>
      have ha : f a = none := h1 a (List.mem_cons_self a l)
      rw [List.cons_append, List.findSome?_cons, ha]
      exact ih fun x hx => h1 x (List.mem_cons_of_mem a hx)

/-- C2 amended: for each of the three target tags, the extractor uses the
first entry in collection order whose tag matches AND whose value decodes
successfully; a matching entry whose value fails to decode is skipped and
later matching entries are consulted. -/
theorem C2_first_decoding_entry :
    (∀ (l1 : List ExifEntry) (e : ExifEntry) (l2 : List ExifEntry) (v : FVal),
      (∀ x ∈ l1, fnumDecode x = none) → fnumDecode e = some v →
      findFNumber (l1 ++ e :: l2) = some v) ∧
    (∀ (l1 : List ExifEntry) (e : ExifEntry) (l2 : List ExifEntry) (v : FVal),
      (∀ x ∈ l1, expDecode x = none) → expDecode e = some v →
      findExposureTime (l1 ++ e :: l2) = some v) ∧
    (∀ (l1 : List ExifEntry) (e : ExifEntry) (l2 : List ExifEntry) (v : ℕ),
      (∀ x ∈ l1, isoDecode x = none) → isoDecode e = some v →
      findISO (l1 ++ e :: l2) = some v) :=
  ⟨fun l1 e l2 v h1 h2 => findSome_append_first fnumDecode l1 e l2 v h1 h2,
   fun l1 e l2 v h1 h2 => findSome_append_first expDecode l1 e l2 v h1 h2,
   fun l1 e l2 v h1 h2 => findSome_append_first isoDecode l1 e l2 v h1 h2⟩

/-- Witness for the amended C2 at the counterexample's collection: the
second ISO entry decodes and is the one used. -/
theorem C2_first_decoding_entry_witness :
    findISO [⟨ExifTag.ISOSpeedRatings, TagValue.OtherVal⟩,
      ⟨ExifTag.ISOSpeedRatings, TagValue.U16 [100]⟩] = some 100 :=
  C2_first_decoding_entry.2.2 [⟨ExifTag.ISOSpeedRatings, TagValue.OtherVal⟩]
    ⟨ExifTag.ISOSpeedRatings, TagValue.U16 [100]⟩ [] 100 (by decide) (by decide)

/-- C4: the extractor returns a populated triple exactly when all three
per-field arms succeed; in every other case it returns nothing — there is
no partially-filled result. -/
theorem C4_all_or_nothing (entries : List ExifEntry) :
    (∀ (f s : FVal) (i : ℕ), extract_exif_data entries = some (f, s, i) ↔
      (findFNumber entries = some f ∧ findExposureTime entries = some s ∧
        findISO entries = some i)) ∧
    ((extract_exif_data entries).isSome ↔
      ((findFNumber entries).isSome ∧ (findExposureTime entries).isSome ∧
        (findISO entries).isSome)) := by
  cases hf : findFNumber entries <;> cases hs : findExposureTime entries <;>
    cases hi : findISO entries <;>
      simp [extract_exif_data, hf, hs, hi, and_assoc, eq_comm]

/-- Witness for C4 at a collection holding all three tags with decodable
values: the extractor returns the fully populated triple. -/
theorem C4_all_or_nothing_witness :
    extract_exif_data
      [⟨ExifTag.FNumber, TagValue.U16 [3]⟩,
       ⟨ExifTag.ExposureTime, TagValue.U16 [1]⟩,
       ⟨ExifTag.ISOSpeedRatings, TagValue.U16 [100]⟩] =
      some (FVal.fin 3, FVal.fin 1, 100) :=
  ((C4_all_or_nothing _).1 _ _ _).mpr ⟨by decide, by decide, by decide⟩

/-- C3: two group keys are equal exactly when the aperture bit patterns, the
labels and the ISO values all agree; consequently two keys agreeing on label
and ISO whose apertures are numerically equal doubles with different bit
patterns (such as -0.0 and 0.0) are distinct keys. -/
theorem C3_key_equality_bit_pattern :
    (∀ a b : MetaData, MetaData.beq a b = true ↔
      (a.f_stop.bits = b.f_stop.bits ∧ a.exposure = b.exposure ∧
        a.iso = b.iso)) ∧
    (∀ a b : MetaData, a.exposure = b.exposure → a.iso = b.iso →
      F64.numEq a.f_stop b.f_stop → a.f_stop.bits ≠ b.f_stop.bits →
      MetaData.beq a b = false) := by
  have hiff : ∀ a b : MetaData, MetaData.beq a b = true ↔
      (a.f_stop.bits = b.f_stop.bits ∧ a.exposure = b.exposure ∧
        a.iso = b.iso) := by
    intro a b
    simp [MetaData.beq, F64.beq, Bool.and_eq_true, and_assoc]
  refine ⟨hiff, ?_⟩
  intro a b he hi hnum hbits
  cases hb : MetaData.beq a b with
  | false => rfl
  | true => exact absurd ((hiff a b).mp hb).1 hbits

/-- Witness for C3: keys with apertures -0.0 (bits 2^63) and 0.0 (bits 0),
equal label and equal ISO, are numerically equal doubles yet distinct keys. -/
theorem C3_key_equality_bit_pattern_witness :
    MetaData.beq ⟨⟨2 ^ 63⟩, "1/60", 100⟩ ⟨⟨0⟩, "1/60", 100⟩ = false ∧
    F64.numEq ⟨2 ^ 63⟩ ⟨0⟩ := by
  have hnum : F64.numEq ⟨2 ^ 63⟩ ⟨0⟩ := by
    have hdec : F64.decode ⟨2 ^ 63⟩ = FVal.fin 0 := by norm_num [F64.decode]
    constructor
    · rw [hdec]; norm_num [F64.decode]
    · rw [hdec]; simp
  exact ⟨C3_key_equality_bit_pattern.2 ⟨⟨2 ^ 63⟩, "1/60", 100⟩ ⟨⟨0⟩, "1/60", 100⟩
    rfl rfl hnum (by norm_num), hnum⟩

/-- C10: the bit-pattern equality on keys is an equivalence relation —
reflexive even on NaN bit patterns, symmetric and transitive — and any
hash computed from the key's raw fields agrees on equal keys. -/
theorem C10_equality_equiv_hash_consistent :
    (∀ a : F64, F64.beq a a = true) ∧
    (∀ a b : F64, F64.beq a b = true → F64.beq b a = true) ∧
    (∀ a b c : F64, F64.beq a b = true → F64.beq b c = true →
      F64.beq a c = true) ∧
    (∀ (h : ℕ → String → ℕ → ℕ) (a b : MetaData), MetaData.beq a b = true →
      MetaData.hashWith h a = MetaData.hashWith h b) :=
  ⟨fun _ => F64.beq_bits_iff.mpr rfl,
   fun _ _ h => F64.beq_bits_iff.mpr (F64.beq_bits_iff.mp h).symm,
   fun _ _ _ h1 h2 => F64.beq_bits_iff.mpr ((F64.beq_bits_iff.mp h1).trans (F64.beq_bits_iff.mp h2)),
   fun _ _ _ hab => by rw [MetaData.beq_key_iff.mp hab]⟩

/-- Witness for C10 at a NaN bit pattern (exponent all ones, non-zero
fraction): equality is reflexive on it, it decodes to NaN, and the hash of a
key carrying it agrees with itself under a concrete hasher. -/
theorem C10_equality_equiv_hash_consistent_witness :
    F64.beq ⟨2047 * 2 ^ 52 + 1⟩ ⟨2047 * 2 ^ 52 + 1⟩ = true ∧
    F64.decode ⟨2047 * 2 ^ 52 + 1⟩ = FVal.nan ∧
    MetaData.hashWith (fun b s i => b + s.length + i)
        ⟨⟨2047 * 2 ^ 52 + 1⟩, "1/60", 200⟩ =
      MetaData.hashWith (fun b s i => b + s.length + i)
        ⟨⟨2047 * 2 ^ 52 + 1⟩, "1/60", 200⟩ := by
  refine ⟨C10_equality_equiv_hash_consistent.1 ⟨2047 * 2 ^ 52 + 1⟩, ?_, ?_⟩
  · norm_num [F64.decode]
  · exact C10_equality_equiv_hash_consistent.2.2.2 _ _ _ (by decide)

/-- Spot checks of the normalizer on the specification's worked examples:
0.002 s maps to "1/500" (an exact table value) and 0.01 s maps to "1/125"
(closer to 1/125 = 0.008 than to 1/60). -/
theorem to_closest_spot_checks :
    to_closest_shutter_speed (FVal.fin (1/500)) = "1/500" ∧
    to_closest_shutter_speed (FVal.fin (1/100)) = "1/125" := by
  constructor <;>
    norm_num [to_closest_shutter_speed, STANDARD_SHUTTER_SPEEDS, shutterStep,
      FVal.sub, FVal.abs, FVal.blt, List.foldl, abs_of_nonneg, abs_of_nonpos]
